import Mathlib

/-!
# Verification of the `ndarray` shape/stride engine

Shallow embedding of `src/ndarray.h` (class `ndarray<dtype, D>`).

Modelling conventions:
* `size_t` in the source is `int32_t` (signed).  All in-range arithmetic is
  modelled with `Int`; C++ signed `%` and `/` truncate toward zero, so they
  are modelled by `Int.tmod` / `Int.tdiv`.
* The element type `dtype` is modelled as `Int` (a representative numeric
  instantiation of the template).
* An allocated array (non-null `_shape`, `_stride`, `head`) is the structure
  `Arr`: `shape` has the D extents, `stride` the D+1 strides, `data` the
  buffer contents.  `new dtype[n]` leaves elements indeterminate for numeric
  types; the model initialises them to 0 — no theorem below depends on the
  initial buffer contents.
* The raw pointer triple of the class (each possibly null) is `RawState`,
  with `none` modelling a null pointer.
* Reading or writing an array entry out of range is undefined behaviour in
  the source; the model makes such accesses inert (`getD` default / `set`
  no-op) and theorems about it are stated on in-range inputs.
-/

namespace Ndarray

/-- An allocated `ndarray<dtype, D>`: non-null `_shape` (length D),
`_stride` (length D+1) and `head` buffer. -/
structure Arr where
  shape : List Int
  stride : List Int
  data : List Int
  deriving Repr, DecidableEq

/-- `size()`: returns `*_stride`, i.e. `_stride[0]`. -/
def sizeA (a : Arr) : Int := a.stride.headD 0

/-- The stride computation shared by all three constructors:
`_stride[D] = 1; for i = 0..D-1: _stride[D-i-1] = _stride[D-i] * shape[D-i-1]`.
`strides sh` is the list `_stride[0], ..., _stride[D]`. -/
def strides : List Int → List Int
  | [] => [1]
  | w :: rest => ((strides rest).headD 1 * w) :: strides rest

/-- `check()`: the constructor validation loop succeeds iff no `_shape[i] <= 0`. -/
def checkOK (sh : List Int) : Bool := sh.all (fun x => decide (0 < x))

/-- The allocated state every successful constructor builds: the given shape,
its computed strides, and a buffer of `size()` elements. -/
def mkArr (sh : List Int) : Arr :=
  ⟨sh, strides sh, List.replicate ((strides sh).headD 0).toNat 0⟩

/-- `ndarray(size_t width)`: square array, `_shape[i] = width` for all i;
`check()` then terminates the process on a non-positive extent (modelled
as `none`). -/
def ctorWidth (D : Nat) (w : Int) : Option Arr :=
  if checkOK (List.replicate D w) then some (mkArr (List.replicate D w)) else none

/-- `ndarray(const size_t *sh)`: shape read from a pointer assumed to hold
D extents; `check()` failure modelled as `none`. -/
def ctorPtr (sh : List Int) : Option Arr :=
  if checkOK sh then some (mkArr sh) else none

/-- `ndarray(initializer_list<size_t> l)`: exits if `l.size() != D`,
then behaves like the pointer constructor. -/
def ctorList (D : Nat) (l : List Int) : Option Arr :=
  if l.length ≠ D then none
  else if checkOK l then some (mkArr l) else none

/-- `std::swap(arr[i], arr[j])` on a heap array modelled as a list; an
out-of-range index is undefined behaviour in the source, modelled as a no-op. -/
def swapAt (l : List Int) (i j : Nat) : List Int :=
  if i < l.length ∧ j < l.length then (l.set i (l.getD j 0)).set j (l.getD i 0) else l

/-- `transpose(int i = 1, int j = 0)`:
`swap(_stride[i+1], _stride[j+1]); swap(_shape[i+1], _shape[j+1]);`
(note: the source really swaps `_shape[i+1]` with `_shape[j+1]`). -/
def transposeA (i j : Nat) (a : Arr) : Arr :=
  { a with stride := swapAt a.stride (i + 1) (j + 1),
           shape := swapAt a.shape (i + 1) (j + 1) }

/-- What the spec states `transpose` does to the shape: swap `shape[i]`
with `shape[j]` (to be compared with `transposeA`). -/
def transposeSpecShape (i j : Nat) (a : Arr) : List Int := swapAt a.shape i j

/-- `(2*dir - 1)` with `dir : bool` converted to `int`. -/
def dirSign (dir : Bool) : Int := 2 * (if dir then 1 else 0) - 1

/-- `rollindex<dir>(size_t rawind, int axis)`:
```
size_t axisind = (rawind % _stride[axis]) / _stride[axis + 1];
rawind += (2*dir-1)*_stride[axis + 1];
if(axisind == dir*(_shape[axis]-1))
    rawind -= (2*dir-1)*_stride[axis];
return rawind;
``` -/
def rollindexA (dir : Bool) (a : Arr) (rawind : Int) (axis : Nat) : Int :=
  let axisind : Int := (rawind.tmod (a.stride.getD axis 0)).tdiv (a.stride.getD (axis + 1) 0)
  let r1 : Int := rawind + dirSign dir * a.stride.getD (axis + 1) 0
  if axisind = (if dir then (1 : Int) else 0) * (a.shape.getD axis 0 - 1) then
    r1 - dirSign dir * a.stride.getD axis 0
  else r1

/-- `rollind(size_t rawind, int ax)`: negative axes roll backward on `ax + D`,
non-negative axes roll forward. -/
def rollindA (D : Nat) (a : Arr) (rawind : Int) (ax : Int) : Int :=
  if ax < 0 then rollindexA false a rawind (ax + D).toNat
  else rollindexA true a rawind ax.toNat

/-- `operator[](size_t rawind)` read: `*(head + rawind)`. -/
def readA (a : Arr) (rawind : Int) : Int := a.data.getD rawind.toNat 0

/-- `operator[](size_t rawind) = v` write (element assignment through the
raw-index reference). -/
def setElemA (a : Arr) (rawind : Nat) (v : Int) : Arr :=
  { a with data := a.data.set rawind v }

/-- `operator()(const size_t *coo)`:
`offset = Σ_{i<D} coo[i] * _stride[i+1]`. -/
def offsetCoo (D : Nat) (a : Arr) (coo : List Int) : Int :=
  ((List.range D).map (fun i => coo.getD i 0 * a.stride.getD (i + 1) 0)).sum

/-- The recursive `adder`: `adder(p, last) = *p * last;`
`adder(p, first, args...) = *p * first + adder(p + 1, args...)`.
The argument pack of `operator()` is the list `args` (never empty in the
source: a call with no index would not compile). -/
def adder (p : List Int) : List Int → Int
  | [] => 0
  | [a] => p.headD 0 * a
  | a :: b :: rest => p.headD 0 * a + adder (p.drop 1) (b :: rest)

/-- `operator()(Args... args)`: offset `adder(_stride + 1, args...)`. -/
def offsetVariadic (a : Arr) (args : List Int) : Int := adder (a.stride.drop 1) args

/-- Copy constructor, non-empty branch: fresh arrays with
`_shape[i] = x.shape(i)`, `_stride[i+1] = x.stride(i)` (i.e. `x._stride[i+1]`),
`_stride[0] = x.size()`, and `head[i] = x[i]` for `i < size()`. -/
def copyCtorA (D : Nat) (x : Arr) : Arr :=
  ⟨(List.range D).map (fun i => x.shape.getD i 0),
   sizeA x :: (List.range D).map (fun i => x.stride.getD (i + 1) 0),
   (List.range (sizeA x).toNat).map (fun i => x.data.getD i 0)⟩

/-- Fill assignment `operator=(dtype val)`, non-empty branch:
`head[i] = val` for `i < size()`. -/
def fillA (v : Int) (a : Arr) : Arr :=
  { a with data :=
      (List.range (sizeA a).toNat).map (fun _ => v) ++ a.data.drop (sizeA a).toNat }

/-- `pm<N>(rhs)`: `head[i] += N * rhs[i]` for `i < size()` (the engine of
`operator+=` with N = 1 and `operator-=` with N = -1). -/
def pmA (N : Int) (a rhs : Arr) : Arr :=
  { a with data :=
      ((List.range (sizeA a).toNat).map (fun i => a.data.getD i 0 + N * rhs.data.getD i 0))
        ++ a.data.drop (sizeA a).toNat }

/-- The negated temporary `operator-()` builds (`tmp` is a copy of `*this`
whose first `size()` entries are overwritten with `-head[i]`) — and then
discards. -/
def negTmp (D : Nat) (a : Arr) : Arr :=
  { copyCtorA D a with data :=
      ((List.range (sizeA a).toNat).map (fun i => -(a.data.getD i 0)))
        ++ (copyCtorA D a).data.drop (sizeA a).toNat }

/-- `operator-()`: constructs the negated temporary, then executes
`return *this;` — the value the caller receives is the original array. -/
def negA (D : Nat) (a : Arr) : Arr :=
  let _tmp := negTmp D a
  a

/-! ## The raw pointer triple (lifecycle states, null pointers allowed) -/

/-- The raw state of the class: `_shape`, `_stride`, `head`, each possibly
null (`none`). -/
structure RawState where
  shape : Option (List Int)
  stride : Option (List Int)
  data : Option (List Int)
  deriving Repr, DecidableEq

/-- The default constructor `ndarray()`: all three pointers null. -/
def emptyCtor : RawState := ⟨none, none, none⟩

/-- View an allocated array as a raw state (all pointers non-null). -/
def ofArr (a : Arr) : RawState := ⟨some a.shape, some a.stride, some a.data⟩

/-- Read a raw state as an allocated array (UB on a null pointer, modelled
by the empty-list default; theorems use this only under non-nullness). -/
def toArr (s : RawState) : Arr := ⟨s.shape.getD [], s.stride.getD [], s.data.getD []⟩

/-- `empty()`: `_stride == nullptr`. -/
def emptyQ (s : RawState) : Bool := s.stride = none

/-- Move constructor: steals the three pointers, nulls the source.
Returns (destination, source-after-move). -/
def moveCtorR (x : RawState) : RawState × RawState := (x, ⟨none, none, none⟩)

/-- Move assignment: `swap(_shape, x._shape); swap(_stride, x._stride);
swap(head, x.head);`.  Returns (destination, source-after-move). -/
def moveAssignR (dst x : RawState) : RawState × RawState := (x, dst)

/-- Copy constructor on raw states: the source may be empty, in which case
all pointers stay null. -/
def copyCtorR (D : Nat) (x : RawState) : RawState :=
  if emptyQ x then ⟨none, none, none⟩ else ofArr (copyCtorA D (toArr x))

/-- Copy assignment `operator=(const ndarray&)`: `if (this != &x)` build a
copy and swap it into `*this`.  `self` models the pointer-identity test
`this == &x`. -/
def copyAssignR (D : Nat) (self : Bool) (dst x : RawState) : RawState :=
  if self then dst else copyCtorR D x

/-- Fill assignment on raw states: `if (empty()) return *this;` else write
every element. -/
def fillR (v : Int) (s : RawState) : RawState :=
  if emptyQ s then s else ofArr (fillA v (toArr s))

/-- Transpose on raw states (the source does not test for null). -/
def transposeR (i j : Nat) (s : RawState) : RawState := ofArr (transposeA i j (toArr s))

/-- Element assignment on raw states. -/
def setElemR (rawind : Nat) (v : Int) (s : RawState) : RawState :=
  ofArr (setElemA (toArr s) rawind v)

/-- The two legal states of the invariant: fully empty (all three pointers
null) or fully allocated with mutually consistent sizes (`_shape` holds D
extents, `_stride` holds D+1 strides, and the buffer holds `size()`
= `_stride[0]` elements). -/
def wfRaw (D : Nat) (s : RawState) : Bool :=
  match s.shape, s.stride, s.data with
  | none, none, none => true
  | some sh, some st, some d =>
      sh.length = D && st.length = D + 1 && ((d.length : Int) = st.headD 0)
  | _, _, _ => false

/-! ## Helper lemmas -/

lemma headD_eq_getD (l : List Int) (d : Int) : l.headD d = l.getD 0 d := by
  cases l <;> simp

lemma getD_drop_one (l : List Int) (k : Nat) (d : Int) :
    (l.drop 1).getD k d = l.getD (k + 1) d := by
  cases l <;> simp

lemma set_headD_succ (l : List Int) (n : Nat) (v d : Int) :
    (l.set (n + 1) v).headD d = l.headD d := by
  cases l <;> simp

lemma map_getD_range (l : List Int) :
    (List.range l.length).map (fun i => l.getD i 0) = l := by
  apply List.ext_getElem (by simp)
  intro i h1 h2
  simp [List.getD_eq_getElem l 0 h2, List.getElem?_eq_getElem h2]

lemma swapAt_length (l : List Int) (i j : Nat) : (swapAt l i j).length = l.length := by
  unfold swapAt; split <;> simp

lemma swapAt_headD_succ (l : List Int) (i j : Nat) (d : Int) :
    (swapAt l (i + 1) (j + 1)).headD d = l.headD d := by
  unfold swapAt; split
  · rw [set_headD_succ, set_headD_succ]
  · rfl

lemma strides_length (sh : List Int) : (strides sh).length = sh.length + 1 := by
  induction sh with
  | nil => rfl
  | cons w rest ih => simp [strides, ih]

lemma strides_headD (sh : List Int) (d : Int) : (strides sh).headD d = sh.prod := by
  induction sh generalizing d with
  | nil => simp [strides]
  | cons w rest ih =>
    show (strides rest).headD 1 * w = (w :: rest).prod
    rw [ih, List.prod_cons, mul_comm]

lemma strides_getD_last (sh : List Int) : (strides sh).getD sh.length 0 = 1 := by
  induction sh with
  | nil => rfl
  | cons w rest ih => simpa [strides] using ih

lemma strides_getD_rel (sh : List Int) (i : Nat) (h : i < sh.length) :
    (strides sh).getD i 0 = (strides sh).getD (i + 1) 0 * sh.getD i 0 := by
  induction sh generalizing i with
  | nil => simp at h
  | cons w rest ih =>
    cases i with
    | zero =>
      have hh : (strides rest).headD 1 = (strides rest).getD 0 0 := by
        cases rest <;> rfl
      show (strides rest).headD 1 * w = (strides rest).getD 0 0 * w
      rw [hh]
    | succ k =>
      have hk : k < rest.length := by simpa using h
      simpa [strides] using ih k hk

lemma checkOK_iff (sh : List Int) : checkOK sh = true ↔ ∀ x ∈ sh, 0 < x := by
  simp [checkOK, List.all_eq_true]

lemma checkOK_prod_pos (sh : List Int) (h : checkOK sh = true) : 0 < sh.prod :=
  List.prod_pos ((checkOK_iff sh).mp h)

lemma sizeA_mkArr (sh : List Int) : sizeA (mkArr sh) = sh.prod := by
  show (strides sh).headD 0 = sh.prod
  exact strides_headD sh 0

lemma ctorWidth_eq (D : Nat) (w : Int) (a : Arr) (h : ctorWidth D w = some a) :
    a = mkArr (List.replicate D w) ∧ checkOK (List.replicate D w) = true := by
  unfold ctorWidth at h
  split at h
  · exact ⟨(Option.some_injective _ h).symm, by assumption⟩
  · exact absurd h (by simp)

lemma ctorPtr_eq (sh : List Int) (a : Arr) (h : ctorPtr sh = some a) :
    a = mkArr sh ∧ checkOK sh = true := by
  unfold ctorPtr at h
  split at h
  · exact ⟨(Option.some_injective _ h).symm, by assumption⟩
  · exact absurd h (by simp)

lemma ctorList_eq (D : Nat) (l : List Int) (a : Arr) (h : ctorList D l = some a) :
    a = mkArr l ∧ checkOK l = true ∧ l.length = D := by
  unfold ctorList at h
  split at h
  · exact absurd h (by simp)
  · split at h
    · refine ⟨(Option.some_injective _ h).symm, by assumption, by omega⟩
    · exact absurd h (by simp)

/-! ## Periodic rolling arithmetic -/

lemma emod_absorb (m k n : Int) : (m % n + k) % n = (m + k) % n := by
  conv_rhs => rw [Int.add_emod]
  rw [Int.add_emod (m % n) k, Int.emod_emod_of_dvd m dvd_rfl]

lemma emod_div_decomp (q n s m t : Int) (_hn : 0 < n) (hs : 0 < s)
    (_hq : 0 ≤ q) (hm : 0 ≤ m) (hmn : m < n) (ht : 0 ≤ t) (hts : t < s) :
    (q * (n * s) + m * s + t) % (n * s) = m * s + t ∧ (m * s + t) / s = m := by
  constructor
  · rw [add_comm (q * (n * s)) (m * s), add_right_comm, Int.add_mul_emod_self]
    apply Int.emod_eq_of_lt (by positivity)
    nlinarith
  · rw [add_comm, Int.add_mul_ediv_right t m (by omega),
      Int.ediv_eq_zero_of_lt ht hts, zero_add]

lemma roll_true_step (a : Arr) (ax : Nat) (n s q m t : Int)
    (hst : a.stride.getD ax 0 = n * s) (hs2 : a.stride.getD (ax + 1) 0 = s)
    (hsh : a.shape.getD ax 0 = n)
    (hn : 0 < n) (hs : 0 < s) (hq : 0 ≤ q) (hm : 0 ≤ m) (hmn : m < n)
    (ht : 0 ≤ t) (hts : t < s) :
    rollindexA true a (q * (n * s) + m * s + t) ax
      = q * (n * s) + ((m + 1) % n) * s + t := by
  obtain ⟨hmod, hdiv⟩ := emod_div_decomp q n s m t hn hs hq hm hmn ht hts
  have hr0 : (0 : Int) ≤ q * (n * s) + m * s + t := by positivity
  have hrem0 : (0 : Int) ≤ (q * (n * s) + m * s + t) % (n * s) := by
    rw [hmod]; positivity
  unfold rollindexA dirSign
  rw [hst, hs2, hsh,
    Int.tmod_eq_emod hr0 (by positivity),
    Int.tdiv_eq_ediv hrem0 (by positivity), hmod, hdiv]
  simp only [if_true, reduceIte, one_mul]
  by_cases hend : m = n - 1
  · rw [if_pos (by omega)]
    have h0 : (m + 1) % n = 0 := by rw [hend]; simp
    rw [h0]; linear_combination s * hend
  · rw [if_neg (by omega)]
    have h1 : (m + 1) % n = m + 1 := Int.emod_eq_of_lt (by omega) (by omega)
    rw [h1]; ring

lemma roll_false_step (a : Arr) (ax : Nat) (n s q m t : Int)
    (hst : a.stride.getD ax 0 = n * s) (hs2 : a.stride.getD (ax + 1) 0 = s)
    (hsh : a.shape.getD ax 0 = n)
    (hn : 0 < n) (hs : 0 < s) (hq : 0 ≤ q) (hm : 0 ≤ m) (hmn : m < n)
    (ht : 0 ≤ t) (hts : t < s) :
    rollindexA false a (q * (n * s) + m * s + t) ax
      = q * (n * s) + ((m + (n - 1)) % n) * s + t := by
  obtain ⟨hmod, hdiv⟩ := emod_div_decomp q n s m t hn hs hq hm hmn ht hts
  have hr0 : (0 : Int) ≤ q * (n * s) + m * s + t := by positivity
  have hrem0 : (0 : Int) ≤ (q * (n * s) + m * s + t) % (n * s) := by
    rw [hmod]; positivity
  unfold rollindexA dirSign
  rw [hst, hs2, hsh,
    Int.tmod_eq_emod hr0 (by positivity),
    Int.tdiv_eq_ediv hrem0 (by positivity), hmod, hdiv]
  simp only [Bool.false_eq_true, if_false, mul_zero, zero_mul, zero_sub, neg_mul, one_mul]
  by_cases hend : m = 0
  · subst hend
    rw [if_pos rfl]
    have h0 : ((0 : Int) + (n - 1)) % n = n - 1 := by
      rw [zero_add]; exact Int.emod_eq_of_lt (by omega) (by omega)
    rw [h0]; ring
  · rw [if_neg hend]
    have h1 : (m + (n - 1)) % n = m - 1 := by
      have h2 : m + (n - 1) = (m - 1) + 1 * n := by ring
      rw [h2, Int.add_mul_emod_self]
      exact Int.emod_eq_of_lt (by omega) (by omega)
    rw [h1]; ring

lemma roll_true_iter (a : Arr) (ax : Nat) (n s q m t : Int)
    (hst : a.stride.getD ax 0 = n * s) (hs2 : a.stride.getD (ax + 1) 0 = s)
    (hsh : a.shape.getD ax 0 = n)
    (hn : 0 < n) (hs : 0 < s) (hq : 0 ≤ q) (hm : 0 ≤ m) (hmn : m < n)
    (ht : 0 ≤ t) (hts : t < s) :
    ∀ k : Nat, (fun r => rollindexA true a r ax)^[k] (q * (n * s) + m * s + t)
      = q * (n * s) + ((m + k) % n) * s + t := by
  intro k
  induction k with
  | zero =>
    simp only [Function.iterate_zero, id_eq, Nat.cast_zero, add_zero]
    rw [Int.emod_eq_of_lt hm hmn]
  | succ k ih =>
    rw [Function.iterate_succ_apply', ih]
    have hm2 : (0 : Int) ≤ (m + k) % n := Int.emod_nonneg _ (by omega)
    have hmn2 : (m + k) % n < n := Int.emod_lt_of_pos _ hn
    rw [roll_true_step a ax n s q ((m + k) % n) t hst hs2 hsh hn hs hq hm2 hmn2 ht hts]
    rw [emod_absorb]
    push_cast
    ring_nf

lemma rollind_decompose (r n s : Int) (hr : 0 ≤ r) (hn : 0 < n) (hs : 0 < s) :
    ∃ q m t : Int, 0 ≤ q ∧ 0 ≤ m ∧ m < n ∧ 0 ≤ t ∧ t < s ∧
      r = q * (n * s) + m * s + t := by
  refine ⟨r / (n * s), (r % (n * s)) / s, r % (n * s) % s, ?_, ?_, ?_, ?_, ?_, ?_⟩
  · exact Int.ediv_nonneg hr (by positivity)
  · exact Int.ediv_nonneg (Int.emod_nonneg r (by positivity)) (by omega)
  · rw [Int.ediv_lt_iff_lt_mul hs]
    calc r % (n * s) < n * s := Int.emod_lt_of_pos r (by positivity)
      _ = n * s := rfl
  · exact Int.emod_nonneg _ (by omega)
  · exact Int.emod_lt_of_pos _ hs
  · have e1 := Int.ediv_add_emod r (n * s)
    have e2 := Int.ediv_add_emod (r % (n * s)) s
    linear_combination -e1 - e2

/-! ## Claim theorems -/

/-- C2 (amended): for every array whose stride entry for the rolled axis still
satisfies the construction relation `stride[a] = shape[a] * stride[a+1]` (as
holds for every freshly constructed array; a transposition can break it),
every raw offset `r ≥ 0` and every axis `a < D`: applying `rollind` forward
on axis `a` `shape[a]` times returns `r`, and applying it forward once and
then backward once (negative-axis form `a - D`) returns `r`. -/
theorem rollind_period_of_construction_strides (D : Nat) (a : Arr) (ax : Nat) (r : Int)
    (haxD : ax < D)
    (hn : 0 < a.shape.getD ax 0)
    (hs : 0 < a.stride.getD (ax + 1) 0)
    (hrel : a.stride.getD ax 0 = a.shape.getD ax 0 * a.stride.getD (ax + 1) 0)
    (hr : 0 ≤ r) :
    (fun x => rollindA D a x (ax : Int))^[(a.shape.getD ax 0).toNat] r = r ∧
      rollindA D a (rollindA D a r (ax : Int)) ((ax : Int) - (D : Int)) = r := by
  have hax0 : ¬ ((ax : Int) < 0) := by omega
  have hfwd : (fun x => rollindA D a x (ax : Int)) = fun x => rollindexA true a x ax := by
    funext x
    unfold rollindA
    rw [if_neg hax0, Int.toNat_natCast]
  obtain ⟨q, m, t, hq, hm, hmn, ht, hts, hdec⟩ :=
    rollind_decompose r (a.shape.getD ax 0) (a.stride.getD (ax + 1) 0) hr hn hs
  have hnInt : ((a.shape.getD ax 0).toNat : Int) = a.shape.getD ax 0 :=
    Int.toNat_of_nonneg (le_of_lt hn)
  have hmn2 : (m + a.shape.getD ax 0) % a.shape.getD ax 0 = m := by
    have h2 : m + a.shape.getD ax 0 = m + 1 * a.shape.getD ax 0 := by ring
    rw [h2, Int.add_mul_emod_self, Int.emod_eq_of_lt hm hmn]
  constructor
  · rw [hfwd, hdec]
    rw [roll_true_iter a ax (a.shape.getD ax 0) (a.stride.getD (ax + 1) 0) q m t
      hrel rfl rfl hn hs hq hm hmn ht hts (a.shape.getD ax 0).toNat]
    rw [hnInt, hmn2]
  · have hstep1 : rollindA D a r (ax : Int) =
        q * (a.shape.getD ax 0 * a.stride.getD (ax + 1) 0)
          + ((m + 1) % a.shape.getD ax 0) * a.stride.getD (ax + 1) 0 + t := by
      rw [congrFun hfwd r, hdec]
      exact roll_true_step a ax (a.shape.getD ax 0) (a.stride.getD (ax + 1) 0) q m t
        hrel rfl rfl hn hs hq hm hmn ht hts
    have hbwd : ∀ x : Int, rollindA D a x ((ax : Int) - (D : Int)) = rollindexA false a x ax := by
      intro x
      unfold rollindA
      rw [if_pos (by omega)]
      congr 1
      have h3 : (ax : Int) - (D : Int) + (D : Int) = (ax : Int) := by ring
      rw [h3, Int.toNat_natCast]
    rw [hstep1, hbwd]
    have hm1 : (0 : Int) ≤ (m + 1) % a.shape.getD ax 0 := Int.emod_nonneg _ (by omega)
    have hm1b : (m + 1) % a.shape.getD ax 0 < a.shape.getD ax 0 := Int.emod_lt_of_pos _ hn
    rw [roll_false_step a ax (a.shape.getD ax 0) (a.stride.getD (ax + 1) 0) q
      ((m + 1) % a.shape.getD ax 0) t hrel rfl rfl hn hs hq hm1 hm1b ht hts]
    rw [emod_absorb]
    have h4 : m + 1 + (a.shape.getD ax 0 - 1) = m + a.shape.getD ax 0 := by ring
    rw [h4, hmn2, hdec]

/-- C2 witness: the periodicity theorem applied to the freshly constructed
2×3 array, axis 0, raw offset 4. -/
theorem rollind_period_witness :
    (fun x => rollindA 2 (mkArr [2, 3]) x ((0 : Nat) : Int))^[
        ((mkArr [2, 3]).shape.getD 0 0).toNat] 4 = 4 ∧
      rollindA 2 (mkArr [2, 3]) (rollindA 2 (mkArr [2, 3]) 4 ((0 : Nat) : Int))
        (((0 : Nat) : Int) - ((2 : Nat) : Int)) = 4 :=
  rollind_period_of_construction_strides 2 (mkArr [2, 3]) 0 4 (by decide)
    (by decide) (by decide) (by decide) (by decide)

/-- C2 counterexample: after the code's own `transpose(1, 0)` on a freshly
constructed 2×3×4 array, rolling forward on axis 1 `shape[1]` times does not
return to the original raw offset (it reaches 48, outside the buffer). -/
theorem rollind_transposed_counterexample :
    (fun r => rollindA 3 (transposeA 1 0 (mkArr [2, 3, 4])) r ((1 : Nat) : Int))^[
        ((transposeA 1 0 (mkArr [2, 3, 4])).shape.getD 1 0).toNat] 0 ≠ 0 := by
  decide

/-- C1 (code bug): on a freshly constructed 2×3×4 array, `transpose(1, 0)`
swaps the strides of axes 0 and 1 as specified, but it swaps `_shape[2]`
with `_shape[1]` instead of `_shape[1]` with `_shape[0]`: the resulting
shape is `[2, 4, 3]`, while the specified swap of `shape[1]` with `shape[0]`
yields `[3, 2, 4]`.  (For `j = 0` the specified `stride[j+1]` swap is
performed, but the shape swap is off by one; with `i = D-1` it even writes
past the end of the `_shape` allocation.) -/
theorem transpose_swaps_wrong_shape_entries :
    (transposeA 1 0 (mkArr [2, 3, 4])).stride = [24, 4, 12, 1] ∧
      (transposeA 1 0 (mkArr [2, 3, 4])).shape = [2, 4, 3] ∧
      transposeSpecShape 1 0 (mkArr [2, 3, 4]) = [3, 2, 4] ∧
      ([2, 4, 3] : List Int) ≠ [3, 2, 4] := by
  decide

/-- C8 (code bug): `operator-()` fills a negated temporary and then executes
`return *this;`, so on the length-2 array with data `[1, 2]` the caller
receives the original array with data `[1, 2]`, not the negation `[-1, -2]`
that the discarded temporary holds. -/
theorem neg_returns_original :
    negA 1 (setElemA (setElemA (mkArr [2]) 0 1) 1 2)
        = setElemA (setElemA (mkArr [2]) 0 1) 1 2 ∧
      (negA 1 (setElemA (setElemA (mkArr [2]) 0 1) 1 2)).data = [1, 2] ∧
      (negTmp 1 (setElemA (setElemA (mkArr [2]) 0 1) 1 2)).data = [-1, -2] ∧
      ([1, 2] : List Int) ≠ [-1, -2] := by
  decide

/-- C6 counterexample: move-assigning a non-empty array `x` into a non-empty
destination leaves `x` holding the destination's previous storage, so the
source is not empty afterwards. -/
theorem move_assign_source_not_empty :
    emptyQ (moveAssignR (ofArr (mkArr [1])) (ofArr (mkArr [2]))).2 = false := by
  decide

/-- C6 (amended): move construction transfers the three pointers and leaves
the source fully empty (all storage null, so `empty()` holds), with the
destination exactly the pre-move source; move assignment instead swaps the
two arrays' storage, so the destination ends equal to the pre-move source
while the source receives the destination's previous contents (and is empty
only if the destination was empty). -/
theorem move_semantics (x d : RawState) :
    moveCtorR x = (x, emptyCtor) ∧
      emptyQ (moveCtorR x).2 = true ∧
      (moveCtorR x).2.shape = none ∧ (moveCtorR x).2.stride = none ∧
      (moveCtorR x).2.data = none ∧
      moveAssignR d x = (x, d) := by
  exact ⟨rfl, rfl, rfl, rfl, rfl, rfl⟩

/-- C10: self copy-assignment takes the `this == &x` branch and returns
`*this` unchanged: shape, strides and all element values are untouched and
no copy is built. -/
theorem self_assignment_noop (D : Nat) (s : RawState) :
    copyAssignR D true s s = s := rfl

lemma mkArr_invariant (sh : List Int) :
    (mkArr sh).stride.getD sh.length 0 = 1 ∧
      (∀ i < sh.length, (mkArr sh).stride.getD i 0
        = (mkArr sh).stride.getD (i + 1) 0 * (mkArr sh).shape.getD i 0) ∧
      sizeA (mkArr sh) = (mkArr sh).shape.prod :=
  ⟨strides_getD_last sh, fun i hi => strides_getD_rel sh i hi, sizeA_mkArr sh⟩

/-- C3: every constructor computes `stride[D] = 1`,
`stride[i] = stride[i+1] * shape[i]` for `i < D`, and
`size() = product of the extents`; and the size is unchanged by element
assignment, fill assignment, `+=`/`-=` (via `pm`) and `transpose`. -/
theorem ctor_stride_size_invariant (D : Nat) :
    (∀ w a, ctorWidth D w = some a →
        a.shape = List.replicate D w ∧ a.stride.getD D 0 = 1 ∧
        (∀ i < D, a.stride.getD i 0 = a.stride.getD (i + 1) 0 * a.shape.getD i 0) ∧
        sizeA a = a.shape.prod) ∧
      (∀ sh a, sh.length = D → ctorPtr sh = some a →
        a.shape = sh ∧ a.stride.getD D 0 = 1 ∧
        (∀ i < D, a.stride.getD i 0 = a.stride.getD (i + 1) 0 * a.shape.getD i 0) ∧
        sizeA a = a.shape.prod) ∧
      (∀ l a, ctorList D l = some a →
        a.shape = l ∧ a.stride.getD D 0 = 1 ∧
        (∀ i < D, a.stride.getD i 0 = a.stride.getD (i + 1) 0 * a.shape.getD i 0) ∧
        sizeA a = a.shape.prod) ∧
      (∀ a i v, sizeA (setElemA a i v) = sizeA a) ∧
      (∀ v a, sizeA (fillA v a) = sizeA a) ∧
      (∀ N a rhs, sizeA (pmA N a rhs) = sizeA a) ∧
      (∀ i j a, sizeA (transposeA i j a) = sizeA a) := by
  refine ⟨?_, ?_, ?_, fun a i v => rfl, fun v a => rfl, fun N a rhs => rfl, ?_⟩
  · intro w a h
    obtain ⟨ha, hc⟩ := ctorWidth_eq D w a h
    subst ha
    obtain ⟨h1, h2, h3⟩ := mkArr_invariant (List.replicate D w)
    rw [List.length_replicate] at h1 h2
    exact ⟨rfl, h1, h2, h3⟩
  · intro sh a hlen h
    obtain ⟨ha, hc⟩ := ctorPtr_eq sh a h
    subst ha
    obtain ⟨h1, h2, h3⟩ := mkArr_invariant sh
    rw [hlen] at h1 h2
    exact ⟨rfl, h1, h2, h3⟩
  · intro l a h
    obtain ⟨ha, hc, hlen⟩ := ctorList_eq D l a h
    subst ha
    obtain ⟨h1, h2, h3⟩ := mkArr_invariant l
    rw [hlen] at h1 h2
    exact ⟨rfl, h1, h2, h3⟩
  · intro i j a
    show (swapAt a.stride (i + 1) (j + 1)).headD 0 = a.stride.headD 0
    exact swapAt_headD_succ a.stride i j 0

/-- C3 witness: the invariant on the square 3×3 constructor. -/
theorem ctor_stride_size_invariant_witness :
    sizeA (mkArr (List.replicate 2 (3 : Int)))
        = (mkArr (List.replicate 2 (3 : Int))).shape.prod ∧
      (mkArr (List.replicate 2 (3 : Int))).stride.getD 0 0
        = (mkArr (List.replicate 2 (3 : Int))).stride.getD 1 0
            * (mkArr (List.replicate 2 (3 : Int))).shape.getD 0 0 :=
  ⟨((ctor_stride_size_invariant 2).1 3 _ rfl).2.2.2,
   ((ctor_stride_size_invariant 2).1 3 _ rfl).2.2.1 0 (by decide)⟩

lemma adder_eq_sum (args : List Int) : ∀ p : List Int,
    adder p args
      = ((List.range args.length).map (fun k => p.getD k 0 * args.getD k 0)).sum := by
  induction args with
  | nil => intro p; simp [adder]
  | cons a rest ih =>
    intro p
    cases rest with
    | nil =>
      simp [adder, List.range_succ, headD_eq_getD, List.getD_eq_getElem?_getD,
        List.head?_eq_getElem?]
    | cons b rest2 =>
      show p.headD 0 * a + adder (p.drop 1) (b :: rest2) = _
      rw [ih (p.drop 1)]
      have hlen : (a :: b :: rest2).length = (b :: rest2).length + 1 := rfl
      rw [hlen, List.range_succ_eq_map]
      simp only [List.map_cons, List.map_map, List.sum_cons, Function.comp]
      congr 1
      · rw [headD_eq_getD, List.getD_cons_zero]
      · congr 1
        apply List.map_congr_left
        intro k hk
        simp [getD_drop_one]

lemma padded_getD_hi (args : List Int) (e i : Nat) :
    (args ++ List.replicate e (0 : Int)).getD (args.length + i) 0 = 0 := by
  rw [List.getD_eq_getElem?_getD, List.getElem?_append_right (by omega)]
  have h : args.length + i - args.length = i := by omega
  rw [h, List.getElem?_replicate]
  rcases lt_or_ge i e with hlt | hge
  · simp [hlt]
  · simp [Nat.not_lt.mpr hge]

lemma padded_getD_lo (args : List Int) (e i : Nat) (h : i < args.length) :
    (args ++ List.replicate e (0 : Int)).getD i 0 = args.getD i 0 := by
  rw [List.getD_eq_getElem?_getD, List.getElem?_append_left h,
    ← List.getD_eq_getElem?_getD]

lemma offsetCoo_padded (D : Nat) (a : Arr) (args : List Int) (h2 : args.length ≤ D) :
    offsetCoo D a (args ++ List.replicate (D - args.length) 0)
      = ((List.range args.length).map
          (fun k => args.getD k 0 * a.stride.getD (k + 1) 0)).sum := by
  obtain ⟨e, rfl⟩ : ∃ e, D = args.length + e := ⟨D - args.length, by omega⟩
  unfold offsetCoo
  have he : args.length + e - args.length = e := by omega
  rw [he, List.range_add, List.map_append, List.sum_append]
  have hz : (((List.range e).map (fun i => args.length + i)).map
      (fun i => (args ++ List.replicate e (0 : Int)).getD i 0
        * a.stride.getD (i + 1) 0)).sum = 0 := by
    apply List.sum_eq_zero
    intro x hx
    rw [List.map_map] at hx
    obtain ⟨i, hi, rfl⟩ := List.mem_map.mp hx
    show (args ++ List.replicate e (0 : Int)).getD (args.length + i) 0 * _ = 0
    rw [padded_getD_hi, zero_mul]
  rw [hz, add_zero]
  apply congrArg
  apply List.map_congr_left
  intro k hk
  rw [padded_getD_lo args e k (List.mem_range.mp hk)]

/-- C4: for `1 ≤ k ≤ D`, variadic indexing with arguments `i0, ..., i(k-1)`
computes the same offset — and hence reads the same element — as
coordinate-array indexing with the coordinate tuple padded with trailing
zeros, i.e. the sum over supplied axes of coordinate times current stride. -/
theorem variadic_eq_coordinate_indexing (D : Nat) (a : Arr) (args : List Int)
    (_h1 : 1 ≤ args.length) (h2 : args.length ≤ D) :
    offsetVariadic a args
        = offsetCoo D a (args ++ List.replicate (D - args.length) 0) ∧
      readA a (offsetVariadic a args)
        = readA a (offsetCoo D a (args ++ List.replicate (D - args.length) 0)) := by
  have key : offsetVariadic a args
      = offsetCoo D a (args ++ List.replicate (D - args.length) 0) := by
    unfold offsetVariadic
    rw [adder_eq_sum args (a.stride.drop 1), offsetCoo_padded D a args h2]
    apply congrArg
    apply List.map_congr_left
    intro k hk
    rw [getD_drop_one, mul_comm]
  exact ⟨key, by rw [key]⟩

/-- C4 witness: the 2-argument call on a rank-3 array agrees with the
zero-padded coordinate tuple. -/
theorem variadic_eq_coordinate_indexing_witness :
    offsetVariadic (mkArr [2, 3, 4]) [1, 2]
        = offsetCoo 3 (mkArr [2, 3, 4]) ([1, 2] ++ List.replicate (3 - 2) 0) ∧
      readA (mkArr [2, 3, 4]) (offsetVariadic (mkArr [2, 3, 4]) [1, 2])
        = readA (mkArr [2, 3, 4])
            (offsetCoo 3 (mkArr [2, 3, 4]) ([1, 2] ++ List.replicate (3 - 2) 0)) :=
  variadic_eq_coordinate_indexing 3 (mkArr [2, 3, 4]) [1, 2] (by decide) (by decide)

lemma toArr_ofArr (x : Arr) : toArr (ofArr x) = x := rfl

/-- C5: for a well-formed source (including a transposed one — no relation
between shape and stride is assumed beyond the length bookkeeping), the copy
constructor reproduces the shape, the current per-axis strides and every
element position by position into fresh lists, and copy assignment to any
destination produces exactly that copy; mutating an element of the copy
produces `x.data.set k v` while the source value `x` is untouched. -/
theorem copy_semantics (D : Nat) (x : Arr)
    (hsh : x.shape.length = D) (hst : x.stride.length = D + 1)
    (hd : (x.data.length : Int) = sizeA x) :
    (copyCtorA D x).shape = x.shape ∧
      (copyCtorA D x).stride = x.stride ∧
      (copyCtorA D x).data = x.data ∧
      (∀ k v, (setElemA (copyCtorA D x) k v).data = x.data.set k v) ∧
      (∀ dst, copyAssignR D false dst (ofArr x) = ofArr (copyCtorA D x)) := by
  obtain ⟨h0, t, hsplit⟩ : ∃ h0 t, x.stride = h0 :: t := by
    cases hx : x.stride with
    | nil => rw [hx] at hst; simp at hst
    | cons y ys => exact ⟨y, ys, rfl⟩
  have hshape : (copyCtorA D x).shape = x.shape := by
    show (List.range D).map (fun i => x.shape.getD i 0) = x.shape
    rw [← hsh, map_getD_range]
  have htl : t.length = D := by
    rw [hsplit] at hst; simpa using hst
  have hstride : (copyCtorA D x).stride = x.stride := by
    show sizeA x :: (List.range D).map (fun i => x.stride.getD (i + 1) 0) = x.stride
    rw [hsplit]
    have hhead : sizeA x = h0 := by rw [sizeA, hsplit]; rfl
    have htail : (List.range D).map (fun i => (h0 :: t).getD (i + 1) 0) = t := by
      simp only [List.getD_cons_succ]
      rw [← htl, map_getD_range]
    rw [hhead, htail]
  have hdata : (copyCtorA D x).data = x.data := by
    show (List.range (sizeA x).toNat).map (fun i => x.data.getD i 0) = x.data
    rw [← hd, Int.toNat_natCast, map_getD_range]
  refine ⟨hshape, hstride, hdata, ?_, ?_⟩
  · intro k v
    show (copyCtorA D x).data.set k v = x.data.set k v
    rw [hdata]
  · intro dst
    show copyCtorR D (ofArr x) = ofArr (copyCtorA D x)
    unfold copyCtorR
    rw [if_neg (by simp [emptyQ, ofArr])]
    rfl

/-- C5 witness: copying the fresh 2×3 array. -/
theorem copy_semantics_witness :
    (copyCtorA 2 (mkArr [2, 3])).data = (mkArr [2, 3]).data ∧
      (setElemA (copyCtorA 2 (mkArr [2, 3])) 0 7).data = (mkArr [2, 3]).data.set 0 7 :=
  ⟨(copy_semantics 2 (mkArr [2, 3]) (by decide) (by decide) (by decide)).2.2.1,
   (copy_semantics 2 (mkArr [2, 3]) (by decide) (by decide) (by decide)).2.2.2.1 0 7⟩

lemma checkOK_replicate (D : Nat) (hD : 0 < D) (w : Int) :
    checkOK (List.replicate D w) = true ↔ 0 < w := by
  rw [checkOK_iff]
  constructor
  · intro h; exact h w (List.mem_replicate.mpr ⟨by omega, rfl⟩)
  · intro hw x hx; rw [List.eq_of_mem_replicate hx]; exact hw

/-- C7: construction terminates the process (modelled as `none`) exactly when
some requested extent is ≤ 0 or — for the initializer-list constructor — the
list's length differs from the rank D; with positive extents of the right
count no error branch is reached. -/
theorem ctor_validation_iff (D : Nat) (hD : 0 < D) (w : Int) (sh l : List Int) :
    (ctorWidth D w = none ↔ w ≤ 0) ∧
      (ctorPtr sh = none ↔ ∃ x ∈ sh, x ≤ 0) ∧
      (ctorList D l = none ↔ l.length ≠ D ∨ ∃ x ∈ l, x ≤ 0) := by
  refine ⟨?_, ?_, ?_⟩
  · unfold ctorWidth
    by_cases hc : checkOK (List.replicate D w) = true
    · rw [if_pos hc]
      have hw := (checkOK_replicate D hD w).mp hc
      constructor
      · intro h; exact absurd h (Option.some_ne_none _)
      · intro h; omega
    · rw [if_neg hc]
      have hw : ¬ 0 < w := fun hh => hc ((checkOK_replicate D hD w).mpr hh)
      exact ⟨fun _ => by omega, fun _ => rfl⟩
  · unfold ctorPtr
    by_cases hc : checkOK sh = true
    · rw [if_pos hc]
      have hall := (checkOK_iff sh).mp hc
      constructor
      · intro h; exact absurd h (Option.some_ne_none _)
      · rintro ⟨x, hx, hx0⟩; exact absurd (hall x hx) (by omega)
    · rw [if_neg hc]
      have hex : ∃ x ∈ sh, x ≤ 0 := by
        by_contra hno
        push_neg at hno
        exact hc ((checkOK_iff sh).mpr (fun x hx => by have := hno x hx; omega))
      exact ⟨fun _ => hex, fun _ => rfl⟩
  · unfold ctorList
    by_cases hl : l.length ≠ D
    · rw [if_pos hl]
      exact ⟨fun _ => Or.inl hl, fun _ => rfl⟩
    · rw [if_neg hl]
      by_cases hc : checkOK l = true
      · rw [if_pos hc]
        have hall := (checkOK_iff l).mp hc
        constructor
        · intro h; exact absurd h (Option.some_ne_none _)
        · rintro (h | ⟨x, hx, hx0⟩)
          · exact absurd h hl
          · exact absurd (hall x hx) (by omega)
      · rw [if_neg hc]
        constructor
        · intro h
          refine Or.inr ?_
          by_contra hno
          push_neg at hno
          exact hc ((checkOK_iff l).mpr (fun x hx => by have := hno x hx; omega))
        · intro h; rfl

/-- C7 witness: a non-positive width is rejected. -/
theorem ctor_validation_iff_witness : ctorWidth 1 (-2) = none :=
  (ctor_validation_iff 1 (by decide) (-2) [1] [1]).1.mpr (by decide)

lemma wfRaw_ofArr_iff (D : Nat) (a : Arr) :
    wfRaw D (ofArr a) = true ↔
      a.shape.length = D ∧ a.stride.length = D + 1 ∧
        (a.data.length : Int) = sizeA a := by
  show (decide (a.shape.length = D) && decide (a.stride.length = D + 1)
      && decide ((a.data.length : Int) = a.stride.headD 0)) = true ↔ _
  simp [and_assoc, sizeA]

lemma wfRaw_cases (D : Nat) (s : RawState) (h : wfRaw D s = true) :
    s = ⟨none, none, none⟩ ∨
      ∃ sh st d, s = ⟨some sh, some st, some d⟩ ∧ sh.length = D ∧
        st.length = D + 1 ∧ (d.length : Int) = st.headD 0 := by
  obtain ⟨os, ot, od⟩ := s
  cases os with
  | none =>
    cases ot with
    | none =>
      cases od with
      | none => exact Or.inl rfl
      | some d => exact absurd h (by simp [wfRaw])
    | some st =>
      cases od with
      | none => exact absurd h (by simp [wfRaw])
      | some d => exact absurd h (by simp [wfRaw])
  | some sh =>
    cases ot with
    | none =>
      cases od with
      | none => exact absurd h (by simp [wfRaw])
      | some d => exact absurd h (by simp [wfRaw])
    | some st =>
      cases od with
      | none => exact absurd h (by simp [wfRaw])
      | some d =>
        have h3 := (wfRaw_ofArr_iff D ⟨sh, st, d⟩).mp h
        exact Or.inr ⟨sh, st, d, rfl, h3.1, h3.2.1, h3.2.2⟩

lemma wfRaw_mkArr (D : Nat) (sh : List Int) (hc : checkOK sh = true)
    (hl : sh.length = D) : wfRaw D (ofArr (mkArr sh)) = true := by
  apply (wfRaw_ofArr_iff D (mkArr sh)).mpr
  have hp : 0 < (strides sh).headD 0 := by
    rw [strides_headD]; exact checkOK_prod_pos sh hc
  refine ⟨hl, ?_, ?_⟩
  · show (strides sh).length = D + 1
    rw [strides_length, hl]
  · show ((List.replicate ((strides sh).headD 0).toNat 0).length : Int)
      = (strides sh).headD 0
    rw [List.length_replicate, Int.toNat_of_nonneg (le_of_lt hp)]

lemma wfRaw_copyCtorA (D : Nat) (x : Arr) (hpos : 0 ≤ sizeA x) :
    wfRaw D (ofArr (copyCtorA D x)) = true := by
  apply (wfRaw_ofArr_iff D (copyCtorA D x)).mpr
  refine ⟨by simp [copyCtorA], by simp [copyCtorA], ?_⟩
  show (((List.range (sizeA x).toNat).map (fun i => x.data.getD i 0)).length : Int)
    = sizeA (copyCtorA D x)
  have hsz : sizeA (copyCtorA D x) = sizeA x := rfl
  rw [hsz, List.length_map, List.length_range, Int.toNat_of_nonneg hpos]

lemma wfRaw_copyCtorR (D : Nat) (x : RawState) (hx : wfRaw D x = true) :
    wfRaw D (copyCtorR D x) = true := by
  rcases wfRaw_cases D x hx with rfl | ⟨sh, st, d, rfl, hsh, hst, hd⟩
  · exact hx
  · show wfRaw D (ofArr (copyCtorA D (toArr ⟨some sh, some st, some d⟩))) = true
    apply wfRaw_copyCtorA
    show (0 : Int) ≤ (⟨sh, st, d⟩ : Arr).stride.headD 0
    calc (0 : Int) ≤ (d.length : Int) := Int.natCast_nonneg _
      _ = st.headD 0 := hd

lemma wfRaw_fillA (D : Nat) (v : Int) (a : Arr)
    (h : wfRaw D (ofArr a) = true) : wfRaw D (ofArr (fillA v a)) = true := by
  rw [wfRaw_ofArr_iff] at h ⊢
  obtain ⟨h1, h2, h3⟩ := h
  refine ⟨h1, h2, ?_⟩
  have hlen : (fillA v a).data.length = a.data.length := by
    show ((List.range (sizeA a).toNat).map (fun _ => v)
      ++ a.data.drop (sizeA a).toNat).length = a.data.length
    have htn : (sizeA a).toNat = a.data.length := by
      rw [← h3, Int.toNat_natCast]
    simp [htn]
  rw [hlen]
  exact h3

lemma wfRaw_transposeA (D : Nat) (i j : Nat) (a : Arr)
    (h : wfRaw D (ofArr a) = true) : wfRaw D (ofArr (transposeA i j a)) = true := by
  rw [wfRaw_ofArr_iff] at h ⊢
  obtain ⟨h1, h2, h3⟩ := h
  refine ⟨?_, ?_, ?_⟩
  · show (swapAt a.shape (i + 1) (j + 1)).length = D
    rw [swapAt_length]; exact h1
  · show (swapAt a.stride (i + 1) (j + 1)).length = D + 1
    rw [swapAt_length]; exact h2
  · show ((a.data.length : Int)) = (swapAt a.stride (i + 1) (j + 1)).headD 0
    rw [swapAt_headD_succ]
    exact h3

lemma wfRaw_setElemA (D : Nat) (k : Nat) (v : Int) (a : Arr)
    (h : wfRaw D (ofArr a) = true) : wfRaw D (ofArr (setElemA a k v)) = true := by
  rw [wfRaw_ofArr_iff] at h ⊢
  obtain ⟨h1, h2, h3⟩ := h
  refine ⟨h1, h2, ?_⟩
  show ((a.data.set k v).length : Int) = sizeA a
  rw [List.length_set]
  exact h3

/-- C9: every reachable state is either fully empty (all three pointers null)
or fully allocated with mutually consistent sizes; this two-state invariant
is preserved by default construction, by every validating constructor, by
copy/move construction and assignment, by fill assignment, and — on
allocated arrays — by transpose and element assignment. -/
theorem allocation_state_invariant (D : Nat) :
    wfRaw D emptyCtor = true ∧
      (∀ w a, ctorWidth D w = some a → wfRaw D (ofArr a) = true) ∧
      (∀ sh a, sh.length = D → ctorPtr sh = some a → wfRaw D (ofArr a) = true) ∧
      (∀ l a, ctorList D l = some a → wfRaw D (ofArr a) = true) ∧
      (∀ x, wfRaw D x = true → wfRaw D (copyCtorR D x) = true) ∧
      (∀ x, wfRaw D x = true →
        wfRaw D (moveCtorR x).1 = true ∧ wfRaw D (moveCtorR x).2 = true) ∧
      (∀ self dst x, wfRaw D dst = true → wfRaw D x = true →
        wfRaw D (copyAssignR D self dst x) = true) ∧
      (∀ dst x, wfRaw D dst = true → wfRaw D x = true →
        wfRaw D (moveAssignR dst x).1 = true ∧
          wfRaw D (moveAssignR dst x).2 = true) ∧
      (∀ v x, wfRaw D x = true → wfRaw D (fillR v x) = true) ∧
      (∀ i j x, wfRaw D x = true → emptyQ x = false →
        wfRaw D (transposeR i j x) = true) ∧
      (∀ k v x, wfRaw D x = true → emptyQ x = false →
        wfRaw D (setElemR k v x) = true) := by
  refine ⟨rfl, ?_, ?_, ?_, fun x hx => wfRaw_copyCtorR D x hx, ?_, ?_, ?_, ?_, ?_, ?_⟩
  · intro w a h
    obtain ⟨ha, hc⟩ := ctorWidth_eq D w a h
    subst ha
    exact wfRaw_mkArr D _ hc (List.length_replicate ..)
  · intro sh a hlen h
    obtain ⟨ha, hc⟩ := ctorPtr_eq sh a h
    subst ha
    exact wfRaw_mkArr D sh hc hlen
  · intro l a h
    obtain ⟨ha, hc, hlen⟩ := ctorList_eq D l a h
    subst ha
    exact wfRaw_mkArr D l hc hlen
  · intro x hx
    exact ⟨hx, rfl⟩
  · intro self dst x hdst hx
    cases self with
    | false => exact wfRaw_copyCtorR D x hx
    | true => exact hdst
  · intro dst x hdst hx
    exact ⟨hx, hdst⟩
  · intro v x hx
    rcases wfRaw_cases D x hx with rfl | ⟨sh, st, d, rfl, hsh, hst, hd⟩
    · exact hx
    · show wfRaw D (ofArr (fillA v (toArr ⟨some sh, some st, some d⟩))) = true
      apply wfRaw_fillA
      exact hx
  · intro i j x hx hne
    rcases wfRaw_cases D x hx with rfl | ⟨sh, st, d, rfl, hsh, hst, hd⟩
    · exact absurd hne (by simp [emptyQ])
    · show wfRaw D (ofArr (transposeA i j (toArr ⟨some sh, some st, some d⟩))) = true
      apply wfRaw_transposeA
      exact hx
  · intro k v x hx hne
    rcases wfRaw_cases D x hx with rfl | ⟨sh, st, d, rfl, hsh, hst, hd⟩
    · exact absurd hne (by simp [emptyQ])
    · show wfRaw D (ofArr (setElemA (toArr ⟨some sh, some st, some d⟩) k v)) = true
      apply wfRaw_setElemA
      exact hx

/-- C9 witness: the invariant holds after transposing the allocated 2×3
array. -/
theorem allocation_state_invariant_witness :
    wfRaw 2 (transposeR 1 0 (ofArr (mkArr [2, 3]))) = true :=
  (allocation_state_invariant 2).2.2.2.2.2.2.2.2.2.1 1 0 (ofArr (mkArr [2, 3]))
    (by decide) (by decide)

end Ndarray
